import Mathlib

/-!
Verification of the recommenders notebooks (NCF and xDeepFM quick-start).

The development shallowly embeds the notebooks' own code — the leave-one-out
evaluation loop, the train/test filtering, the `groupby("userID").last()`
leave-one-out test set, and the `all_predictions` construction — together
with spec-modelled versions of library functions whose bodies are not part
of this repository (`python_chrono_split`, `prepare_hparams`,
`FFMTextIterator`, the model wrapper entry points).

Scores and ratings are represented as rationals (ℚ); the real-valued
logarithms of the NDCG metric use ℝ.
-/

namespace NCFEval

/-- Embedding of `rank = sum(output >= output[0])` from the leave-one-out
evaluation loop of the NCF notebook: the number of scores in the list that
are greater than or equal to the first score (the score of the positive
test item, which the test loader places first). -/
def rankOf : List ℚ → ℕ
  | [] => 0
  | s :: rest => (s :: rest).countP (fun x => decide (s ≤ x))

/-- Embedding of the per-list NDCG value of the notebook's loop:
`ndcgs.append(1 / np.log(rank + 1))` when `rank <= k`, else `ndcgs.append(0)`.
`np.log` is the natural logarithm. -/
noncomputable def ndcgCode (k : ℕ) (scores : List ℚ) : ℝ :=
  if rankOf scores ≤ k then 1 / Real.log (rankOf scores + 1) else 0

/-- The standard closed-form per-list NDCG for leave-one-out evaluation,
as the spec's words describe it: `1 / log₂(rank + 1)` when the positive
item's rank is at most `k`, else `0`. Written from the spec for comparison
with `ndcgCode`, which is written from the source. -/
noncomputable def ndcgSpec (k : ℕ) (scores : List ℚ) : ℝ :=
  if rankOf scores ≤ k then 1 / Real.logb 2 (rankOf scores + 1) else 0

/-- Embedding of the hit indicator of the notebook's loop:
`hit_ratio.append(1)` when `rank <= k`, else `hit_ratio.append(0)`. -/
def hitCode (k : ℕ) (scores : List ℚ) : ℚ :=
  if rankOf scores ≤ k then 1 else 0

/-- The `for b in data.test_loader():` loop grows the `hit_ratio` list by
appending one indicator per test list. -/
def hitLoop (k : ℕ) (batches : List (List ℚ)) : List ℚ :=
  batches.foldl (fun acc b => acc ++ [hitCode k b]) []

/-- `np.mean` over a list of rationals. -/
def mean (xs : List ℚ) : ℚ :=
  xs.sum / xs.length

/-- `eval_hr = np.mean(hit_ratio)`. -/
def evalHR (k : ℕ) (batches : List (List ℚ)) : ℚ :=
  mean (hitLoop k batches)

theorem hitLoop_eq_append (k : ℕ) (batches : List (List ℚ)) (acc : List ℚ) :
    batches.foldl (fun acc b => acc ++ [hitCode k b]) acc
      = acc ++ batches.map (hitCode k) := by
  induction batches generalizing acc with
  | nil => simp
  | cons b bs ih => simp [List.foldl_cons, ih]

theorem hitLoop_eq_map (k : ℕ) (batches : List (List ℚ)) :
    hitLoop k batches = batches.map (hitCode k) := by
  simpa using hitLoop_eq_append k batches []

end NCFEval

namespace NCFEval

/-- C1: the claim asserts the per-list NDCG of the evaluation loop equals the
standard closed form `1 / log₂(rank + 1)`. The code computes
`1 / np.log(rank + 1)` with the natural logarithm instead: on the list of
101 scores whose positive (first) item scores 2 and whose 100 negatives
score 0, the rank is 1, the code's NDCG is `1 / ln 2 ≈ 1.44`, while the
standard closed form gives `1 / log₂ 2 = 1`; the two differ. -/
theorem ndcg_natural_log_bug :
    rankOf (2 :: List.replicate 100 (0 : ℚ)) = 1 ∧
    ndcgCode 10 (2 :: List.replicate 100 (0 : ℚ)) = 1 / Real.log 2 ∧
    ndcgSpec 10 (2 :: List.replicate 100 (0 : ℚ)) = 1 ∧
    ndcgCode 10 (2 :: List.replicate 100 (0 : ℚ))
      ≠ ndcgSpec 10 (2 :: List.replicate 100 (0 : ℚ)) := by
  have hrank : rankOf (2 :: List.replicate 100 (0 : ℚ)) = 1 := by decide
  have hlogpos : 0 < Real.log 2 := Real.log_pos one_lt_two
  have hloglt : Real.log 2 < 1 := by
    have := Real.log_lt_sub_one_of_pos (x := 2) (by norm_num) (by norm_num)
    linarith
  have hcode : ndcgCode 10 (2 :: List.replicate 100 (0 : ℚ)) = 1 / Real.log 2 := by
    rw [ndcgCode, if_pos (by rw [hrank]; norm_num), hrank]
    norm_num
  have hspec : ndcgSpec 10 (2 :: List.replicate 100 (0 : ℚ)) = 1 := by
    rw [ndcgSpec, if_pos (by rw [hrank]; norm_num), hrank]
    norm_num [Real.logb_self_eq_one (by norm_num : (1 : ℝ) < 2)]
  refine ⟨hrank, hcode, hspec, ?_⟩
  rw [hcode, hspec]
  intro heq
  rw [div_eq_one_iff_eq (ne_of_gt hlogpos)] at heq
  linarith [heq]

/-- C2: in the leave-one-out evaluation loop, for every family of test lists
of 101 scores each, the hit indicator of a list is 1 exactly when at most 10
of its scores are greater than or equal to the first (positive) score, it is
0 otherwise, and the overall HR is the mean of the indicators over all test
lists. -/
theorem loo_hit_indicator_mean (batches : List (List ℚ))
    (h : ∀ s ∈ batches, s.length = 101) :
    (∀ s ∈ batches, ∀ a rest, s = a :: rest →
      ((hitCode 10 s = 1 ↔ s.countP (fun x => decide (a ≤ x)) ≤ 10) ∧
       (hitCode 10 s = 0 ↔ ¬ s.countP (fun x => decide (a ≤ x)) ≤ 10))) ∧
    evalHR 10 batches = mean (batches.map (hitCode 10)) := by
  constructor
  · intro s hs a rest hcons
    subst hcons
    have hr : rankOf (a :: rest) = (a :: rest).countP (fun x => decide (a ≤ x)) := rfl
    constructor
    · constructor
      · intro h1
        by_contra hgt
        rw [hitCode, hr, if_neg hgt] at h1
        exact absurd h1 (by norm_num)
      · intro hle
        rw [hitCode, hr, if_pos hle]
    · constructor
      · intro h0
        intro hle
        rw [hitCode, hr, if_pos hle] at h0
        exact absurd h0 (by norm_num)
      · intro hgt
        rw [hitCode, hr, if_neg hgt]
  · rw [evalHR, hitLoop_eq_map]

/-- Witness for `loo_hit_indicator_mean` at a concrete pair of test lists: one where
the positive ranks first (a hit) and one where it ranks last (a miss). -/
theorem loo_hit_indicator_mean_witness :
    (∀ s ∈ [(5 : ℚ) :: List.replicate 100 (0 : ℚ),
            (0 : ℚ) :: List.replicate 100 (1 : ℚ)], s.length = 101) ∧
    ((∀ s ∈ [(5 : ℚ) :: List.replicate 100 (0 : ℚ),
             (0 : ℚ) :: List.replicate 100 (1 : ℚ)], ∀ a rest, s = a :: rest →
      ((hitCode 10 s = 1 ↔ s.countP (fun x => decide (a ≤ x)) ≤ 10) ∧
       (hitCode 10 s = 0 ↔ ¬ s.countP (fun x => decide (a ≤ x)) ≤ 10))) ∧
     evalHR 10 [(5 : ℚ) :: List.replicate 100 (0 : ℚ),
                (0 : ℚ) :: List.replicate 100 (1 : ℚ)]
       = mean ([(5 : ℚ) :: List.replicate 100 (0 : ℚ),
                (0 : ℚ) :: List.replicate 100 (1 : ℚ)].map (hitCode 10))) :=
  ⟨by decide, loo_hit_indicator_mean _ (by decide)⟩

end NCFEval

namespace NCFData

/-- Interaction record of the collaborative-filtering side: one
`userID,itemID,rating,timestamp` row of the MovieLens frame. -/
structure Interaction where
  userID : ℕ
  itemID : ℕ
  rating : ℚ
  timestamp : ℕ
  deriving DecidableEq, Repr

/-- Timestamp comparison between two interaction rows. -/
def TsLE (a b : Interaction) : Prop :=
  a.timestamp ≤ b.timestamp

/-- Rows of a frame belonging to one user, in frame order
(`df[df["userID"] == u]`). -/
def userRows (u : ℕ) (df : List Interaction) : List Interaction :=
  df.filter (fun r => decide (r.userID = u))

/-- Insertion of a row into a timestamp-sorted list, after all rows with a
smaller-or-equal timestamp. -/
def insertTs (x : Interaction) : List Interaction → List Interaction
  | [] => [x]
  | y :: ys => if x.timestamp < y.timestamp then x :: y :: ys else y :: insertTs x ys

/-- Sorting a list of rows by ascending timestamp (insertion sort). -/
def sortTs : List Interaction → List Interaction
  | [] => []
  | x :: xs => insertTs x (sortTs xs)

/-- Modelled from the spec: the split point of `python_chrono_split(df, 0.75)`
(recommenders library; its body is not among this repository's sources),
which gives each user the first 75% of their chronologically ordered
interactions as training data. -/
def splitPoint (n : ℕ) : ℕ :=
  3 * n / 4

/-- Modelled from the spec: a single user's training share under the
chronological split — the earliest `splitPoint` rows of the user's
timestamp-sorted history. -/
def trainPiece (df : List Interaction) (u : ℕ) : List Interaction :=
  (sortTs (userRows u df)).take (splitPoint (sortTs (userRows u df)).length)

/-- Modelled from the spec: a single user's test share under the
chronological split — the chronologically latest rows of the user's
timestamp-sorted history. -/
def testPiece (df : List Interaction) (u : ℕ) : List Interaction :=
  (sortTs (userRows u df)).drop (splitPoint (sortTs (userRows u df)).length)

/-- Modelled from the spec: `train, test = python_chrono_split(df, 0.75)` —
the chronological 75/25 split of the frame, built per user. -/
def chronoSplit (df : List Interaction) : List Interaction × List Interaction :=
  ((df.map (fun r => r.userID)).dedup.flatMap (trainPiece df),
   (df.map (fun r => r.userID)).dedup.flatMap (testPiece df))

/-- Embedding of the notebook's test-filtering step:
`test = test[test["userID"].isin(train["userID"].unique())]` followed by
`test = test[test["itemID"].isin(train["itemID"].unique())]`. -/
def filterTest (train test : List Interaction) : List Interaction :=
  (test.filter (fun r => decide (r.userID ∈ train.map (fun t => t.userID)))).filter
    (fun r => decide (r.itemID ∈ train.map (fun t => t.itemID)))

/-- The filtered test partition the notebook writes to `test.csv`. -/
def testPartition (df : List Interaction) : List Interaction :=
  filterTest (chronoSplit df).1 (chronoSplit df).2

/-- Embedding of `test.groupby("userID").last().reset_index()`: on a frame
with no null entries, pandas `last()` yields, for each distinct userID, that
user's last row in frame order. -/
def groupByLast (test : List Interaction) : List Interaction :=
  (test.map (fun r => r.userID)).dedup.filterMap (fun u => (userRows u test).getLast?)

/-- The leave-one-out test set the notebook writes to
`leave_one_out_test.csv`. -/
def looTestSet (df : List Interaction) : List Interaction :=
  groupByLast (testPartition df)

/-- Modelled from the spec: the NCF `Dataset.test_loader` (recommenders
library; its body is not among this repository's sources) emits, per
positive test record, one batch `[[u, i, 1], [u, j1, 0], [u, j2, 0], ...]`
ranking the positive item against the sampled negative items `neg u`. -/
def testLoader (loo : List Interaction) (neg : ℕ → List ℕ) :
    List (List (ℕ × ℕ × ℚ)) :=
  loo.map (fun r =>
    (r.userID, r.itemID, (1 : ℚ)) :: (neg r.userID).map (fun i => (r.userID, i, (0 : ℚ))))

theorem insertTs_perm (x : Interaction) (l : List Interaction) :
    (insertTs x l).Perm (x :: l) := by
  induction l with
  | nil => exact List.Perm.refl _
  | cons y ys ih =>
    by_cases h : x.timestamp < y.timestamp
    · simp [insertTs, h]
    · simp only [insertTs, if_neg h]
      exact (ih.cons y).trans (List.Perm.swap x y ys)

theorem sortTs_perm (l : List Interaction) : (sortTs l).Perm l := by
  induction l with
  | nil => exact List.Perm.refl _
  | cons x xs ih => exact (insertTs_perm x (sortTs xs)).trans (ih.cons x)

theorem mem_sortTs {a : Interaction} {l : List Interaction} :
    a ∈ sortTs l ↔ a ∈ l :=
  (sortTs_perm l).mem_iff

theorem pairwise_insertTs {x : Interaction} {l : List Interaction}
    (h : l.Pairwise TsLE) : (insertTs x l).Pairwise TsLE := by
  induction l with
  | nil => simp [insertTs, TsLE]
  | cons y ys ih =>
    rcases List.pairwise_cons.mp h with ⟨hy, hys⟩
    by_cases hlt : x.timestamp < y.timestamp
    · simp only [insertTs, if_pos hlt]
      refine List.pairwise_cons.mpr ⟨?_, h⟩
      intro z hz
      rcases List.mem_cons.mp hz with rfl | hz2
      · exact le_of_lt hlt
      · exact le_trans (le_of_lt hlt) (hy z hz2)
    · simp only [insertTs, if_neg hlt]
      refine List.pairwise_cons.mpr ⟨?_, ih hys⟩
      intro z hz
      rcases List.mem_cons.mp ((insertTs_perm x ys).mem_iff.mp hz) with rfl | hz2
      · exact le_of_not_lt hlt
      · exact hy z hz2

theorem pairwise_sortTs (l : List Interaction) : (sortTs l).Pairwise TsLE := by
  induction l with
  | nil => simp [sortTs]
  | cons x xs ih => exact pairwise_insertTs ih

theorem mem_of_getLast?_eq {α : Type} {l : List α} {a : α}
    (h : l.getLast? = some a) : a ∈ l := by
  obtain ⟨hne, heq⟩ := List.mem_getLast?_eq_getLast (Option.mem_def.mpr h)
  rw [heq]
  exact List.getLast_mem hne

theorem sorted_getLast?_max :
    ∀ (l : List Interaction), l.Pairwise TsLE → ∀ (a : Interaction),
      l.getLast? = some a → ∀ x ∈ l, x.timestamp ≤ a.timestamp := by
  intro l
  induction l with
  | nil => intro _ a h; simp at h
  | cons b bs ih =>
    intro hs a h x hx
    cases bs with
    | nil =>
      have hab : b = a := by simpa using h
      have hxb : x = b := by simpa using hx
      rw [hxb, hab]
    | cons c cs =>
      have h2 : (c :: cs).getLast? = some a := by
        rw [List.getLast?_cons_cons] at h
        exact h
      rcases List.pairwise_cons.mp hs with ⟨hb, hs2⟩
      rcases List.mem_cons.mp hx with rfl | hx2
      · exact hb a (mem_of_getLast?_eq h2)
      · exact ih hs2 a h2 x hx2

theorem flatMap_single (g : ℕ → List Interaction) (u : ℕ) :
    ∀ l : List ℕ, l.Nodup → u ∈ l → (∀ v ∈ l, v ≠ u → g v = []) →
      l.flatMap g = g u := by
  intro l
  induction l with
  | nil => intro _ hu; simp at hu
  | cons v vs ih =>
    intro hnd hu hother
    rcases List.nodup_cons.mp hnd with ⟨hv, hnd2⟩
    rcases List.mem_cons.mp hu with rfl | hu2
    · have hnil : vs.flatMap g = [] :=
        List.flatMap_eq_nil_iff.mpr (fun w hw =>
          hother w (List.mem_cons_of_mem _ hw) (by rintro rfl; exact hv hw))
      rw [List.flatMap_cons, hnil, List.append_nil]
    · have hvu : v ≠ u := by rintro rfl; exact hv hu2
      rw [List.flatMap_cons, hother v (List.mem_cons_self v vs) hvu, List.nil_append]
      exact ih hnd2 hu2 (fun w hw hwu => hother w (List.mem_cons_of_mem _ hw) hwu)

theorem userID_of_mem_testPiece {df : List Interaction} {v : ℕ} {r : Interaction}
    (h : r ∈ testPiece df v) : r.userID = v := by
  have h1 : r ∈ sortTs (userRows v df) := List.drop_subset _ _ h
  have h2 : r ∈ userRows v df := mem_sortTs.mp h1
  have h3 := (List.mem_filter.mp h2).2
  exact of_decide_eq_true h3

theorem userRows_testSplit (df : List Interaction) (u : ℕ)
    (hu : u ∈ (df.map (fun r => r.userID)).dedup) :
    userRows u (chronoSplit df).2 = testPiece df u := by
  have hrw : userRows u (chronoSplit df).2
      = (df.map (fun r => r.userID)).dedup.flatMap
          (fun v => (testPiece df v).filter (fun r => decide (r.userID = u))) := by
    rw [userRows, chronoSplit]
    exact List.filter_flatMap _ _ _
  rw [hrw]
  rw [flatMap_single _ u _ (List.nodup_dedup _) hu ?hother]
  · exact List.filter_eq_self.mpr
      (fun r hr => by simp [userID_of_mem_testPiece hr])
  case hother =>
    intro v _ hvu
    exact List.filter_eq_nil_iff.mpr
      (fun r hr => by simp [userID_of_mem_testPiece hr, hvu])

theorem mem_dedup_users_of_mem_testPartition (df : List Interaction) (u : ℕ)
    (hu : u ∈ (testPartition df).map (fun r => r.userID)) :
    u ∈ (df.map (fun r => r.userID)).dedup := by
  obtain ⟨s, hsT, hsu⟩ := List.mem_map.mp hu
  have hs1 : s ∈ (chronoSplit df).2 := by
    have h1 := (List.mem_filter.mp hsT).1
    exact (List.mem_filter.mp h1).1
  obtain ⟨v, hv, hsv⟩ := List.mem_flatMap.mp hs1
  have : s.userID = v := userID_of_mem_testPiece hsv
  rw [← hsu, this]
  exact hv

theorem pairwise_userRows_testPartition (df : List Interaction) (u : ℕ)
    (hu : u ∈ (testPartition df).map (fun r => r.userID)) :
    (userRows u (testPartition df)).Pairwise TsLE := by
  have hu2 := mem_dedup_users_of_mem_testPartition df u hu
  have hsorted : (userRows u (chronoSplit df).2).Pairwise TsLE := by
    rw [userRows_testSplit df u hu2]
    exact (pairwise_sortTs _).sublist (List.drop_sublist _ _)
  have hsub : List.Sublist (testPartition df) (chronoSplit df).2 :=
    (List.filter_sublist _).trans (List.filter_sublist _)
  exact hsorted.sublist (hsub.filter _)

theorem filterMap_filter_key (g : ℕ → Option Interaction)
    (hkey : ∀ v r, g v = some r → r.userID = v) :
    ∀ (l : List ℕ), l.Nodup → ∀ (u : ℕ), u ∈ l → ∀ (r : Interaction), g u = some r →
      (l.filterMap g).filter (fun s => decide (s.userID = u)) = [r] := by
  intro l
  induction l with
  | nil => intro _ u hu; simp at hu
  | cons v vs ih =>
    intro hnd u hu r hg
    rcases List.nodup_cons.mp hnd with ⟨hv, hnd2⟩
    rcases List.mem_cons.mp hu with rfl | hu2
    · rw [List.filterMap_cons_some hg,
        List.filter_cons_of_pos (by simp [hkey u r hg])]
      have hnil : (vs.filterMap g).filter (fun s => decide (s.userID = u)) = [] := by
        refine List.filter_eq_nil_iff.mpr ?_
        intro s hsm
        obtain ⟨w, hw, hgw⟩ := List.mem_filterMap.mp hsm
        have hsw : s.userID = w := hkey w s hgw
        simp only [decide_eq_true_eq]
        rw [hsw]
        rintro rfl
        exact hv hw
      rw [hnil]
    · have hvu : v ≠ u := by rintro rfl; exact hv hu2
      cases hgv : g v with
      | none =>
        rw [List.filterMap_cons_none hgv]
        exact ih hnd2 u hu2 r hg
      | some rv =>
        rw [List.filterMap_cons_some hgv,
          List.filter_cons_of_neg (by simp [hkey v rv hgv, hvu])]
        exact ih hnd2 u hu2 r hg

end NCFData

namespace NCFData

/-- C3: for every frame and every user present in the chronologically split
and filtered test partition, the leave-one-out test set built by
`test.groupby("userID").last()` holds exactly one record for that user; that
record is one of the user's test-partition rows and carries the maximal
timestamp among them (the chronologically last interaction); and the test
loader emits for it a batch ranking this positive against the sampled
negative items. -/
theorem loo_last_per_user (df : List Interaction) (u : ℕ)
    (hu : u ∈ (testPartition df).map (fun r => r.userID)) :
    ∃ r, userRows u (looTestSet df) = [r] ∧
      r ∈ userRows u (testPartition df) ∧
      r.userID = u ∧
      (∀ s ∈ userRows u (testPartition df), s.timestamp ≤ r.timestamp) ∧
      ∀ neg : ℕ → List ℕ,
        ((u, r.itemID, (1 : ℚ)) :: (neg u).map (fun i => (u, i, (0 : ℚ))))
          ∈ testLoader (looTestSet df) neg := by
  obtain ⟨s, hsT, hsu⟩ := List.mem_map.mp hu
  have hsrow : s ∈ userRows u (testPartition df) :=
    List.mem_filter.mpr ⟨hsT, by simp [hsu]⟩
  have hne : userRows u (testPartition df) ≠ [] := by
    intro hnil
    rw [hnil] at hsrow
    exact absurd hsrow (List.not_mem_nil s)
  obtain ⟨r, hr⟩ : ∃ r, (userRows u (testPartition df)).getLast? = some r :=
    Option.isSome_iff_exists.mp (List.getLast?_isSome.mpr hne)
  have hkey : ∀ v rv, (userRows v (testPartition df)).getLast? = some rv →
      rv.userID = v := by
    intro v rv hl
    have hmem := mem_of_getLast?_eq hl
    exact of_decide_eq_true (List.mem_filter.mp hmem).2
  have hloo : userRows u (looTestSet df) = [r] :=
    filterMap_filter_key _ hkey _ (List.nodup_dedup _) u (List.mem_dedup.mpr hu) r hr
  have hrT : r ∈ userRows u (testPartition df) := mem_of_getLast?_eq hr
  have hru : r.userID = u := hkey u r hr
  have hmax : ∀ s2 ∈ userRows u (testPartition df), s2.timestamp ≤ r.timestamp :=
    sorted_getLast?_max _ (pairwise_userRows_testPartition df u hu) r hr
  refine ⟨r, hloo, hrT, hru, hmax, ?_⟩
  intro neg
  have hrloo : r ∈ looTestSet df := by
    have hmem : r ∈ userRows u (looTestSet df) := by
      rw [hloo]
      exact List.mem_singleton.mpr rfl
    exact (List.mem_filter.mp hmem).1
  have hbatch := List.mem_map_of_mem
    (fun t : Interaction =>
      (t.userID, t.itemID, (1 : ℚ)) :: (neg t.userID).map (fun i => (t.userID, i, (0 : ℚ))))
    hrloo
  rw [testLoader]
  simpa [hru] using hbatch

/-- Sample frame for the witnesses: one user with four interactions, the
chronologically last of which repeats an item seen in training. -/
def df0 : List Interaction :=
  [⟨1, 10, 3, 100⟩, ⟨1, 11, 3, 200⟩, ⟨1, 12, 3, 300⟩, ⟨1, 10, 4, 400⟩]

/-- Witness for `loo_last_per_user` on the concrete frame `df0`. -/
theorem loo_last_per_user_witness :
    1 ∈ (testPartition df0).map (fun r => r.userID) ∧
    (∃ r, userRows 1 (looTestSet df0) = [r] ∧
      r ∈ userRows 1 (testPartition df0) ∧
      r.userID = 1 ∧
      (∀ s ∈ userRows 1 (testPartition df0), s.timestamp ≤ r.timestamp) ∧
      ∀ neg : ℕ → List ℕ,
        ((1, r.itemID, (1 : ℚ)) :: (neg 1).map (fun i => (1, i, (0 : ℚ))))
          ∈ testLoader (looTestSet df0) neg) :=
  ⟨by decide, loo_last_per_user df0 1 (by decide)⟩

/-- C9: after the two `isin` filtering lines, every row of the test
partition references a userID occurring in the training partition and an
itemID occurring in the training partition. -/
theorem test_refs_train (df : List Interaction) (r : Interaction)
    (hr : r ∈ testPartition df) :
    r.userID ∈ ((chronoSplit df).1).map (fun t => t.userID) ∧
    r.itemID ∈ ((chronoSplit df).1).map (fun t => t.itemID) := by
  simp only [testPartition, filterTest] at hr
  rcases List.mem_filter.mp hr with ⟨h1, h2⟩
  rcases List.mem_filter.mp h1 with ⟨_, hq1⟩
  exact ⟨of_decide_eq_true hq1, of_decide_eq_true h2⟩

/-- Witness for `test_refs_train` on the concrete frame `df0`. -/
theorem test_refs_train_witness :
    (⟨1, 10, 4, 400⟩ : Interaction) ∈ testPartition df0 ∧
    ((⟨1, 10, 4, 400⟩ : Interaction).userID
        ∈ ((chronoSplit df0).1).map (fun t => t.userID) ∧
     (⟨1, 10, 4, 400⟩ : Interaction).itemID
        ∈ ((chronoSplit df0).1).map (fun t => t.itemID)) :=
  ⟨by decide, test_refs_train df0 ⟨1, 10, 4, 400⟩ (by decide)⟩

end NCFData

namespace NCFData

/-- Row of the `all_predictions` frame before the merge: a
`(userID, itemID, prediction)` triple. -/
structure PredRow where
  userID : ℕ
  itemID : ℕ
  prediction : ℚ
  deriving DecidableEq, Repr

/-- Row of `pd.merge(train, all_predictions, on=["userID","itemID"],
how="outer")`: either side's column is null (`none`) when the key is absent
from that side. -/
structure MergedRow where
  userID : ℕ
  itemID : ℕ
  rating : Option ℚ
  prediction : Option ℚ
  deriving DecidableEq, Repr

/-- Embedding of the cross-product prediction frame the notebook builds:
`for user in train.userID.unique():` extend `users` by the user repeated,
`items` by `train.itemID.unique()`, and `preds` by the model scores. -/
def allPredictionsRaw (train : List Interaction) (predict : ℕ → ℕ → ℚ) :
    List PredRow :=
  ((train.map (fun r => r.userID)).dedup).flatMap (fun u =>
    ((train.map (fun r => r.itemID)).dedup).map (fun i => ⟨u, i, predict u i⟩))

/-- Merged rows contributed by one training row `t` under an outer merge:
one combined row per prediction row sharing `t`'s key, or a row with a null
prediction when no prediction row matches. -/
def mergeMatched (t : Interaction) (preds : List PredRow) : List MergedRow :=
  match preds.filter (fun p => decide (p.userID = t.userID ∧ p.itemID = t.itemID)) with
  | [] => [⟨t.userID, t.itemID, some t.rating, none⟩]
  | ps => ps.map (fun p => ⟨t.userID, t.itemID, some t.rating, some p.prediction⟩)

/-- Test for a prediction row whose key matches no training row; under an
outer merge such rows appear with a null rating. -/
def unmatched (train : List Interaction) (p : PredRow) : Bool :=
  !(train.any (fun t => decide (t.userID = p.userID ∧ t.itemID = p.itemID)))

/-- Embedding of `pd.merge(train, all_predictions, on=["userID","itemID"],
how="outer")` up to row order: matched and left-only rows first, then
right-only rows with a null rating. -/
def mergeOuter (train : List Interaction) (preds : List PredRow) : List MergedRow :=
  train.flatMap (fun t => mergeMatched t preds)
    ++ (preds.filter (unmatched train)).map
        (fun p => ⟨p.userID, p.itemID, none, some p.prediction⟩)

/-- Embedding of `all_predictions = merged[merged.rating.isnull()]` (the
`drop('rating', axis=1)` only removes the constantly-null column). -/
def allPredictions (train : List Interaction) (predict : ℕ → ℕ → ℚ) :
    List MergedRow :=
  (mergeOuter train (allPredictionsRaw train predict)).filter
    (fun m => m.rating.isNone)

theorem rating_of_mem_mergeMatched {t : Interaction} {preds : List PredRow}
    {m : MergedRow} (h : m ∈ mergeMatched t preds) : m.rating = some t.rating := by
  unfold mergeMatched at h
  split at h
  · have hm := List.mem_singleton.mp h
    rw [hm]
  · obtain ⟨p, _, hp⟩ := List.mem_map.mp h
    rw [← hp]

theorem mem_allPredictionsRaw {train : List Interaction} {predict : ℕ → ℕ → ℚ}
    {p : PredRow} :
    p ∈ allPredictionsRaw train predict ↔
      (p.userID ∈ train.map (fun r => r.userID) ∧
       p.itemID ∈ train.map (fun r => r.itemID) ∧
       p.prediction = predict p.userID p.itemID) := by
  constructor
  · intro h
    obtain ⟨u, hu, h2⟩ := List.mem_flatMap.mp h
    obtain ⟨i, hi, hp⟩ := List.mem_map.mp h2
    rw [← hp]
    exact ⟨List.mem_dedup.mp hu, List.mem_dedup.mp hi, rfl⟩
  · rintro ⟨h1, h2, h3⟩
    refine List.mem_flatMap.mpr ⟨p.userID, List.mem_dedup.mpr h1, ?_⟩
    refine List.mem_map.mpr ⟨p.itemID, List.mem_dedup.mpr h2, ?_⟩
    obtain ⟨pu, pi, pp⟩ := p
    simp only at h3
    rw [h3]

/-- C10: a row belongs to the `all_predictions` frame built by the outer
merge with `train` followed by the `rating.isnull()` filter exactly when its
key lies in the cross product of training users and training items, is not a
training interaction, its rating column is null, and its prediction column
carries the model's score for that key: rated pairs are all removed and
every unrated cross-product pair is present with its predicted score. -/
theorem allPredictions_char (train : List Interaction) (predict : ℕ → ℕ → ℚ)
    (m : MergedRow) :
    m ∈ allPredictions train predict ↔
      (m.userID ∈ train.map (fun t => t.userID) ∧
       m.itemID ∈ train.map (fun t => t.itemID) ∧
       (∀ t ∈ train, ¬ (t.userID = m.userID ∧ t.itemID = m.itemID)) ∧
       m.rating = none ∧
       m.prediction = some (predict m.userID m.itemID)) := by
  constructor
  · intro h
    obtain ⟨hmem, hnull⟩ := List.mem_filter.mp h
    rcases List.mem_append.mp hmem with hleft | hright
    · obtain ⟨t, _, hm⟩ := List.mem_flatMap.mp hleft
      rw [rating_of_mem_mergeMatched hm] at hnull
      simp at hnull
    · obtain ⟨p, hp, hmp⟩ := List.mem_map.mp hright
      obtain ⟨hpraw, hpun⟩ := List.mem_filter.mp hp
      obtain ⟨h1, h2, h3⟩ := mem_allPredictionsRaw.mp hpraw
      have hnom : ∀ t ∈ train, ¬ (t.userID = p.userID ∧ t.itemID = p.itemID) := by
        intro t ht hc
        have hany : train.any
            (fun t2 => decide (t2.userID = p.userID ∧ t2.itemID = p.itemID)) = true :=
          List.any_eq_true.mpr ⟨t, ht, by simpa using hc⟩
        rw [unmatched, hany] at hpun
        simp at hpun
      rw [← hmp]
      exact ⟨h1, h2, hnom, rfl, by rw [h3]⟩
  · rintro ⟨h1, h2, hnom, hnull, hpred⟩
    refine List.mem_filter.mpr ⟨?_, by rw [hnull]; rfl⟩
    refine List.mem_append.mpr (Or.inr ?_)
    refine List.mem_map.mpr
      ⟨⟨m.userID, m.itemID, predict m.userID m.itemID⟩, ?_, ?_⟩
    · refine List.mem_filter.mpr ⟨mem_allPredictionsRaw.mpr ⟨h1, h2, rfl⟩, ?_⟩
      rw [unmatched]
      simp only [Bool.not_eq_true']
      refine List.any_eq_false.mpr ?_
      intro t ht
      simpa using hnom t ht
    · obtain ⟨mu, mi, mr, mp⟩ := m
      simp only at h1 h2 hnull hpred
      rw [hnull, hpred]
  -- end

/-- Witness frame for the `all_predictions` characterization: two users,
two items, three rated pairs, one unrated pair. -/
def train0 : List Interaction :=
  [⟨1, 10, 3, 100⟩, ⟨1, 11, 4, 200⟩, ⟨2, 10, 5, 300⟩]

/-- Witness for `allPredictions_char`: on `train0` with a constant scorer,
the unrated pair `(2, 11)` appears with its score. -/
theorem allPredictions_char_witness :
    (⟨2, 11, none, some 7⟩ : MergedRow) ∈ allPredictions train0 (fun _ _ => 7) ↔
      ((2 : ℕ) ∈ train0.map (fun t => t.userID) ∧
       (11 : ℕ) ∈ train0.map (fun t => t.itemID) ∧
       (∀ t ∈ train0, ¬ (t.userID = 2 ∧ t.itemID = 11)) ∧
       (none : Option ℚ) = none ∧
       (some 7 : Option ℚ) = some ((fun _ _ => (7 : ℚ)) 2 11)) :=
  allPredictions_char train0 (fun _ _ => 7) ⟨2, 11, none, some 7⟩

end NCFData

namespace FFM

/-- Splitting of a character list at every occurrence of a separator,
keeping empty segments (the behaviour of a Python `split(sep)`). -/
def splitOnChar (c : Char) (xs : List Char) : List (List Char) :=
  xs.foldr (fun x acc =>
    if x = c then [] :: acc
    else match acc with
      | [] => [[x]]
      | g :: gs => (x :: g) :: gs) [[]]

/-- Numeric value of a decimal digit character. -/
def digitVal (c : Char) : ℕ :=
  c.toNat - 48

/-- Parsing of a non-empty all-digit character list as a natural number;
`none` on an empty or non-numeric input. -/
def parseNat (xs : List Char) : Option ℕ :=
  if xs ≠ [] ∧ xs.all Char.isDigit then
    some (xs.foldl (fun n c => 10 * n + digitVal c) 0)
  else none

/-- Parsing of an unsigned decimal literal (`digits` or `digits.digits`)
as a rational. -/
def parseNonnegDecimal (xs : List Char) : Option ℚ :=
  match splitOnChar (Char.ofNat 46) xs with
  | [a] => (parseNat a).map (fun n => (n : ℚ))
  | [a, b] =>
    match parseNat a, parseNat b with
    | some i, some f => some ((i : ℚ) + (f : ℚ) / (10 : ℚ) ^ b.length)
    | _, _ => none
  | _ => none

/-- Parsing of an optionally negated decimal literal as a rational. -/
def parseDecimal (xs : List Char) : Option ℚ :=
  match xs with
  | c :: rest =>
    if c = Char.ofNat 45 then (parseNonnegDecimal rest).map (fun q => -q)
    else parseNonnegDecimal xs
  | [] => none

/-- Modelled from the spec: one sparse feature record of the FFM text
format — a binary label plus the `(field id, feature id, value)` triples of
one input line, with 1-based field and feature ids. -/
structure FFMRecord where
  label : ℚ
  triples : List (ℕ × ℕ × ℚ)
  deriving DecidableEq, Repr

/-- Modelled from the spec: parsing of one `field:feat:val` token of the FFM
line format (`FFMTextIterator` is recommenders-library code absent from
src/). A token that does not split into exactly three `:`-separated parts,
or whose ids are non-numeric or not 1-based, is a descriptive parse
error. -/
def parseTriple (tok : List Char) : Except String (ℕ × ℕ × ℚ) :=
  match splitOnChar (Char.ofNat 58) tok with
  | [f, ft, v] =>
    match parseNat f, parseNat ft, parseDecimal v with
    | some fi, some fti, some vv =>
      if fi = 0 ∨ fti = 0 then
        Except.error ("field and feature ids are 1-based in token " ++ String.mk tok)
      else Except.ok (fi, fti, vv)
    | _, _, _ =>
      Except.error ("non-numeric id or value in token " ++ String.mk tok)
  | _ => Except.error ("wrong part count in token " ++ String.mk tok)

/-- Sequential parsing of the feature tokens of a line, stopping at the
first parse error. -/
def parseTriples : List (List Char) → Except String (List (ℕ × ℕ × ℚ))
  | [] => Except.ok []
  | t :: ts =>
    match parseTriple t with
    | Except.error e => Except.error e
    | Except.ok tr =>
      match parseTriples ts with
      | Except.error e => Except.error e
      | Except.ok trs => Except.ok (tr :: trs)

/-- Modelled from the spec: parsing of one line
`label field1:feat1:val1 field2:feat2:val2 ...` of the FFM text format into
a sparse feature record; a line with a non-numeric label or any malformed
token is a descriptive parse error. -/
def parseLine (line : String) : Except String FFMRecord :=
  match (splitOnChar (Char.ofNat 32) line.toList).filter (fun t => !t.isEmpty) with
  | [] => Except.error ("empty line")
  | lab :: toks =>
    match parseDecimal lab with
    | none => Except.error ("non-numeric label " ++ String.mk lab)
    | some l =>
      match parseTriples toks with
      | Except.error e => Except.error e
      | Except.ok trs => Except.ok ⟨l, trs⟩

/-- Sequential parsing of all input lines, stopping at the first parse
error: no recovery or retry is attempted. -/
def parseAll : List String → Except String (List FFMRecord)
  | [] => Except.ok []
  | l :: ls =>
    match parseLine l with
    | Except.error e => Except.error e
    | Except.ok r =>
      match parseAll ls with
      | Except.error e => Except.error e
      | Except.ok rs => Except.ok (r :: rs)

/-- Grouping of a record stream into consecutive batches of `b` records
(the final batch may be shorter). -/
def chunk {α : Type} (b : ℕ) (xs : List α) : List (List α) :=
  if h : b = 0 ∨ xs.isEmpty then []
  else xs.take b :: chunk b (xs.drop b)
termination_by xs.length
decreasing_by
  have h2 := not_or.mp h
  have h3 : 0 < b := Nat.pos_of_ne_zero h2.1
  have h4 : 0 < xs.length := by
    cases xs with
    | nil => exact absurd rfl h2.2
    | cons x rest => simp
  rw [List.length_drop]
  omega

/-- Modelled from the spec: one batch produced by the FFM iterator — the
parallel per-record arrays of 0-based field indices, 0-based feature
indices, feature values, and labels. -/
structure FFMBatch where
  fieldIdx : List (List ℕ)
  featIdx : List (List ℕ)
  values : List (List ℚ)
  labels : List ℚ
  deriving DecidableEq, Repr

/-- Padding of a record's triples to the common field count of its batch;
padding entries carry index 0 and value 0 after conversion. -/
def padTriples (m : ℕ) (ts : List (ℕ × ℕ × ℚ)) : List (ℕ × ℕ × ℚ) :=
  ts ++ List.replicate (m - ts.length) (1, 1, 0)

/-- The common field-count layout of a batch: the largest triple count of
its records. -/
def fieldCount (rs : List FFMRecord) : ℕ :=
  (rs.map (fun r => r.triples.length)).foldr max 0

/-- Modelled from the spec: conversion of a group of records into one
batch of parallel arrays, every record padded to the batch's field count
and ids made 0-based for the embedding lookup. -/
def mkBatch (rs : List FFMRecord) : FFMBatch :=
  { fieldIdx := rs.map (fun r => (padTriples (fieldCount rs) r.triples).map (fun t => t.1 - 1)),
    featIdx := rs.map (fun r => (padTriples (fieldCount rs) r.triples).map (fun t => t.2.1 - 1)),
    values := rs.map (fun r => (padTriples (fieldCount rs) r.triples).map (fun t => t.2.2)),
    labels := rs.map (fun r => r.label) }

/-- Modelled from the spec: the FFM text iterator — parse every line, then
group the records into batches of the requested size. -/
def ffmIterator (b : ℕ) (lines : List String) : Except String (List FFMBatch) :=
  match parseAll lines with
  | Except.error e => Except.error e
  | Except.ok rs => Except.ok ((chunk b rs).map mkBatch)

theorem le_fieldCount {rs : List FFMRecord} {r : FFMRecord} (h : r ∈ rs) :
    r.triples.length ≤ fieldCount rs := by
  induction rs with
  | nil => simp at h
  | cons a as ih =>
    rcases List.mem_cons.mp h with rfl | h2
    · exact le_max_left _ _
    · exact le_trans (ih h2) (le_max_right _ _)

theorem length_padTriples {m : ℕ} {ts : List (ℕ × ℕ × ℚ)} (h : ts.length ≤ m) :
    (padTriples m ts).length = m := by
  rw [padTriples, List.length_append, List.length_replicate]
  omega

theorem parseAll_ok_of_forall (lines : List String)
    (h : ∀ l ∈ lines, (parseLine l).isOk = true) :
    ∃ rs, parseAll lines = Except.ok rs := by
  induction lines with
  | nil => exact ⟨[], rfl⟩
  | cons l ls ih =>
    have hl := h l (List.mem_cons_self l ls)
    obtain ⟨r, hr⟩ : ∃ r, parseLine l = Except.ok r := by
      cases hpl : parseLine l with
      | error e => rw [hpl] at hl; simp [Except.isOk, Except.toBool] at hl
      | ok r => exact ⟨r, rfl⟩
    obtain ⟨rs, hrs⟩ := ih (fun l2 hl2 => h l2 (List.mem_cons_of_mem _ hl2))
    exact ⟨r :: rs, by rw [parseAll, hr, hrs]⟩

theorem chunk_mem_aux {α : Type} (b : ℕ) (hb : 0 < b) :
    ∀ (n : ℕ) (xs : List α), xs.length ≤ n →
      ∀ piece ∈ chunk b xs, piece ≠ [] ∧ piece.length ≤ b := by
  intro n
  induction n with
  | zero =>
    intro xs hlen piece hp
    have hxnil : xs = [] := List.eq_nil_of_length_eq_zero (Nat.le_zero.mp hlen)
    rw [hxnil] at hp
    unfold chunk at hp
    simp at hp
  | succ n ih =>
    intro xs hlen piece hp
    unfold chunk at hp
    by_cases hc : b = 0 ∨ xs.isEmpty
    · rw [dif_pos hc] at hp
      simp at hp
    · rw [dif_neg hc] at hp
      have h2 := not_or.mp hc
      have hlenpos : 0 < xs.length := by
        cases xs with
        | nil => exact absurd rfl h2.2
        | cons x rest => simp
      rcases List.mem_cons.mp hp with rfl | h3
      · constructor
        · intro htake
          have h5 : (xs.take b).length = 0 := by rw [htake]; rfl
          rw [List.length_take] at h5
          rcases Nat.min_eq_zero_iff.mp h5 with h6 | h6 <;> omega
        · rw [List.length_take]
          exact min_le_left _ _
      · refine ih (xs.drop b) ?_ piece h3
        rw [List.length_drop]
        omega

theorem chunk_mem {α : Type} {b : ℕ} {xs piece : List α} (hb : 0 < b)
    (h : piece ∈ chunk b xs) : piece ≠ [] ∧ piece.length ≤ b :=
  chunk_mem_aux b hb xs.length xs le_rfl piece h

end FFM

namespace FFM

/-- C6: for every list of well-formed FFM input lines and every positive
batch size, the iterator succeeds and produces batches whose parallel
arrays of field indices, feature indices, values and labels all have one
row per record (at most the batch size, and at least one), with every row
padded to one common field count, the layout the embedding lookup
expects. -/
theorem ffm_iterator_layout (lines : List String) (b : ℕ) (hb : 0 < b)
    (hwf : ∀ l ∈ lines, (parseLine l).isOk = true) :
    ∃ batches, ffmIterator b lines = Except.ok batches ∧
      ∀ batch ∈ batches,
        0 < batch.labels.length ∧
        batch.labels.length ≤ b ∧
        batch.fieldIdx.length = batch.labels.length ∧
        batch.featIdx.length = batch.labels.length ∧
        batch.values.length = batch.labels.length ∧
        ∃ m, (∀ row ∈ batch.fieldIdx, row.length = m) ∧
             (∀ row ∈ batch.featIdx, row.length = m) ∧
             (∀ row ∈ batch.values, row.length = m) := by
  obtain ⟨rs, hrs⟩ := parseAll_ok_of_forall lines hwf
  refine ⟨(chunk b rs).map mkBatch, by rw [ffmIterator, hrs], ?_⟩
  intro batch hbatch
  obtain ⟨piece, hpiece, hmk⟩ := List.mem_map.mp hbatch
  obtain ⟨hne, hle⟩ := chunk_mem hb hpiece
  rw [← hmk]
  have hlab : (mkBatch piece).labels.length = piece.length := by
    simp [mkBatch]
  refine ⟨by rw [hlab]; exact List.length_pos.mpr hne,
    by rw [hlab]; exact hle,
    by simp [mkBatch], by simp [mkBatch], by simp [mkBatch],
    fieldCount piece, ?_, ?_, ?_⟩
  · intro row hrow
    obtain ⟨r, hr, hrr⟩ := List.mem_map.mp hrow
    rw [← hrr, List.length_map, length_padTriples (le_fieldCount hr)]
  · intro row hrow
    obtain ⟨r, hr, hrr⟩ := List.mem_map.mp hrow
    rw [← hrr, List.length_map, length_padTriples (le_fieldCount hr)]
  · intro row hrow
    obtain ⟨r, hr, hrr⟩ := List.mem_map.mp hrow
    rw [← hrr, List.length_map, length_padTriples (le_fieldCount hr)]

/-- Witness for `ffm_iterator_layout` on two concrete well-formed lines
and batch size 2. -/
theorem ffm_iterator_layout_witness :
    (0 < 2 ∧ ∀ l ∈ ["1 1:2:0.5 2:3:1", "0 3:4:2"], (parseLine l).isOk = true) ∧
    (∃ batches, ffmIterator 2 ["1 1:2:0.5 2:3:1", "0 3:4:2"] = Except.ok batches ∧
      ∀ batch ∈ batches,
        0 < batch.labels.length ∧
        batch.labels.length ≤ 2 ∧
        batch.fieldIdx.length = batch.labels.length ∧
        batch.featIdx.length = batch.labels.length ∧
        batch.values.length = batch.labels.length ∧
        ∃ m, (∀ row ∈ batch.fieldIdx, row.length = m) ∧
             (∀ row ∈ batch.featIdx, row.length = m) ∧
             (∀ row ∈ batch.values, row.length = m)) :=
  ⟨⟨by decide, by decide⟩, ffm_iterator_layout _ 2 (by decide) (by decide)⟩

/-- C7: a malformed line fails the whole parse immediately with the
descriptive error of its first bad token, regardless of any lines after
it: the parser and the iterator surface the error unchanged and attempt
no recovery or retry. -/
theorem ffm_parse_fail_fast (pre : List String) (line : String)
    (post : List String) (b : ℕ) (e : String)
    (hpre : ∀ l ∈ pre, (parseLine l).isOk = true)
    (hbad : parseLine line = Except.error e) :
    parseAll (pre ++ line :: post) = Except.error e ∧
    ffmIterator b (pre ++ line :: post) = Except.error e := by
  have hall : ∀ pre2 : List String, (∀ l ∈ pre2, (parseLine l).isOk = true) →
      parseAll (pre2 ++ line :: post) = Except.error e := by
    intro pre2
    induction pre2 with
    | nil =>
      intro _
      rw [List.nil_append, parseAll, hbad]
    | cons l ls ih =>
      intro hpre2
      have hl := hpre2 l (List.mem_cons_self l ls)
      obtain ⟨r, hr⟩ : ∃ r, parseLine l = Except.ok r := by
        cases hpl : parseLine l with
        | error e2 => rw [hpl] at hl; simp [Except.isOk, Except.toBool] at hl
        | ok r => exact ⟨r, rfl⟩
      have ih2 := ih (fun l2 hl2 => hpre2 l2 (List.mem_cons_of_mem _ hl2))
      rw [List.cons_append, parseAll, hr, ih2]
  have h1 := hall pre hpre
  exact ⟨h1, by rw [ffmIterator, h1]⟩

/-- Witness for `ffm_parse_fail_fast`: the second line has a token with
only two `:`-separated parts, and the parse fails with exactly that
token's error even though a well-formed line follows. -/
theorem ffm_parse_fail_fast_witness :
    (∀ l ∈ ["1 1:2:0.5"], (parseLine l).isOk = true) ∧
    parseLine ("1 2:3") = Except.error ("wrong part count in token 2:3") ∧
    (parseAll (["1 1:2:0.5"] ++ ("1 2:3") :: ["0 1:1:1"])
        = Except.error ("wrong part count in token 2:3") ∧
     ffmIterator 2 (["1 1:2:0.5"] ++ ("1 2:3") :: ["0 1:1:1"])
        = Except.error ("wrong part count in token 2:3")) :=
  ⟨by decide, rfl,
   ffm_parse_fail_fast _ _ _ 2 _ (by decide) rfl⟩

end FFM

namespace HParams

/-- Value of a hyperparameter option: counts, flags, list-valued layer
sizes, rationals for learning-rate and regularization coefficients, or
strings. -/
inductive HValue where
  | nat : ℕ → HValue
  | rat : ℚ → HValue
  | flag : Bool → HValue
  | natList : List ℕ → HValue
  | str : String → HValue
  deriving DecidableEq, Repr

/-- Lookup of an option name in a flat parameter bag (first binding
wins). -/
def lookupParam (bag : List (String × HValue)) (k : String) : Option HValue :=
  match bag with
  | [] => none
  | (k2, v) :: rest => if k2 = k then some v else lookupParam rest k

/-- Update of one option in a bag with Python-dict semantics: replace the
binding of the key in place when present, append the new binding
otherwise. -/
def setParam (bag : List (String × HValue)) (k : String) (v : HValue) :
    List (String × HValue) :=
  match bag with
  | [] => [(k, v)]
  | (k2, w) :: rest =>
    if k2 = k then (k, v) :: rest else (k2, w) :: setParam rest k v

/-- Modelled from the spec: `prepare_hparams(yaml_file, **overrides)`
(recommenders library; its body is not among this repository's sources)
merges the base configuration file's bag with the caller-supplied keyword
overrides, the overrides applied on top of the file's values, into the
single flat bag consumed by model construction. -/
def prepareHparams (base overrides : List (String × HValue)) :
    List (String × HValue) :=
  overrides.foldl (fun bag kv => setParam bag kv.1 kv.2) base

theorem lookupParam_setParam_self (bag : List (String × HValue))
    (k : String) (v : HValue) :
    lookupParam (setParam bag k v) k = some v := by
  induction bag with
  | nil => simp [setParam, lookupParam]
  | cons p rest ih =>
    obtain ⟨k2, w⟩ := p
    by_cases h : k2 = k
    · simp [setParam, h, lookupParam]
    · simp only [setParam, if_neg h, lookupParam]
      exact ih

theorem lookupParam_setParam_other (bag : List (String × HValue))
    (k k2 : String) (v : HValue) (h : k ≠ k2) :
    lookupParam (setParam bag k v) k2 = lookupParam bag k2 := by
  induction bag with
  | nil => simp [setParam, lookupParam, h]
  | cons p rest ih =>
    obtain ⟨k3, w⟩ := p
    by_cases h3 : k3 = k
    · have h32 : ¬ k3 = k2 := by rw [h3]; exact h
      simp [setParam, h3, lookupParam, h, h32]
    · simp only [setParam, if_neg h3, lookupParam]
      by_cases h32 : k3 = k2
      · rw [if_pos h32, if_pos h32]
      · rw [if_neg h32, if_neg h32]
        exact ih

theorem lookupParam_eq_none (bag : List (String × HValue)) (k : String)
    (h : ∀ p ∈ bag, p.1 ≠ k) : lookupParam bag k = none := by
  induction bag with
  | nil => rfl
  | cons p rest ih =>
    obtain ⟨k2, w⟩ := p
    rw [lookupParam, if_neg (h (k2, w) (List.mem_cons_self _ _)),
      ih (fun q hq => h q (List.mem_cons_of_mem _ hq))]

/-- C4: for every base-file bag, every override list with distinct option
names, and every option name, the bag `prepare_hparams` produces maps the
name to the caller-supplied value when an override for it is given, and to
the base file's value otherwise. -/
theorem prepare_hparams_merge (base overrides : List (String × HValue))
    (hnd : (overrides.map Prod.fst).Nodup) (k : String) :
    lookupParam (prepareHparams base overrides) k =
      match lookupParam overrides k with
      | some v => some v
      | none => lookupParam base k := by
  induction overrides generalizing base with
  | nil => rfl
  | cons kv ovs ih =>
    obtain ⟨k1, v1⟩ := kv
    rw [List.map_cons] at hnd
    rcases List.nodup_cons.mp hnd with ⟨hk1, hnd2⟩
    have hfold : prepareHparams base ((k1, v1) :: ovs)
        = prepareHparams (setParam base k1 v1) ovs := rfl
    rw [hfold, ih (setParam base k1 v1) hnd2]
    by_cases h : k1 = k
    · have hnone : lookupParam ovs k = none := by
        refine lookupParam_eq_none ovs k ?_
        intro p hp hpk
        apply hk1
        rw [h, ← hpk]
        exact List.mem_map.mpr ⟨p, hp, rfl⟩
      rw [hnone, lookupParam, if_pos h, h, lookupParam_setParam_self]
    · rw [lookupParam, if_neg h]
      cases hov : lookupParam ovs k with
      | some v => rfl
      | none => rw [lookupParam_setParam_other base k1 k v1 h]

/-- Witness for `prepare_hparams_merge`: a base bag with a learning rate
and a batch size, overrides replacing the learning rate and adding an
epoch count; the overridden name maps to the override value. -/
theorem prepare_hparams_merge_witness :
    ([("learning_rate" : String), "epochs"].Nodup) ∧
    (lookupParam
        (prepareHparams
          [("learning_rate", HValue.rat (1 / 100)), ("batch_size", HValue.nat 128)]
          [("learning_rate", HValue.rat (1 / 1000)), ("epochs", HValue.nat 15)])
        ("learning_rate")
      = match lookupParam
          [("learning_rate", HValue.rat (1 / 1000)), ("epochs", HValue.nat 15)]
          ("learning_rate") with
        | some v => some v
        | none => lookupParam
            [("learning_rate", HValue.rat (1 / 100)), ("batch_size", HValue.nat 128)]
            ("learning_rate")) :=
  ⟨by decide,
   prepare_hparams_merge
     [("learning_rate", HValue.rat (1 / 100)), ("batch_size", HValue.nat 128)]
     [("learning_rate", HValue.rat (1 / 1000)), ("epochs", HValue.nat 15)]
     (by decide) ("learning_rate")⟩

end HParams

namespace ModelOps

/-- Modelled from the spec: the state of a model wrapper — the
hyperparameter bag it was constructed from plus the framework-owned weight
state; the wrapper holds only configuration and a reference to the
computation graph. -/
structure ModelState (W : Type) where
  hparams : List (String × HParams.HValue)
  weights : W

/-- Modelled from the spec: model construction consumes the prepared bag
as-is. -/
def buildModel {W : Type} (hp : List (String × HParams.HValue)) (w0 : W) :
    ModelState W :=
  ⟨hp, w0⟩

/-- Modelled from the spec: `fit` forwards to the framework's training
step, which owns and mutates only the weight tensors. -/
def fit {W D : Type} (step : W → D → W) (m : ModelState W) (d : D) :
    ModelState W :=
  { m with weights := step m.weights d }

/-- Modelled from the spec: `run_eval` computes metrics from the current
weights and returns the model unchanged. -/
def runEval {W D M : Type} (ev : W → D → M) (m : ModelState W) (d : D) :
    ModelState W × M :=
  (m, ev m.weights d)

/-- Modelled from the spec: `predict` computes scores from the current
weights and returns the model unchanged. -/
def predict {W D P : Type} (pr : W → D → P) (m : ModelState W) (d : D) :
    ModelState W × P :=
  (m, pr m.weights d)

/-- C5: the bag handed to model construction is stored as-is, and neither
`fit` nor `run_eval` nor `predict` changes any field of the hyperparameter
bag: the bag read back after each operation is the one the model was
constructed from. -/
theorem hparams_immutable {W D M P : Type}
    (hp : List (String × HParams.HValue)) (w0 : W)
    (step : W → D → W) (ev : W → D → M) (pr : W → D → P) (d : D) :
    (buildModel hp w0).hparams = hp ∧
    (∀ m : ModelState W,
      (fit step m d).hparams = m.hparams ∧
      ((runEval ev m d).1).hparams = m.hparams ∧
      ((predict pr m d).1).hparams = m.hparams) :=
  ⟨rfl, fun m => ⟨rfl, rfl, rfl⟩⟩

end ModelOps

namespace Pipeline

/-- Modelled from the spec and the notebook call sites: a run is the
sequential composition of the framework calls (`model.fit`, then
`model.predict`, then the metric evaluation), each of which may raise a
framework-level error of type `ε`; the notebooks wrap none of these calls
in an exception handler, so an error aborts the run. -/
def runPipeline {ε M P R : Type} (fitR : Except ε M)
    (predictR : M → Except ε P) (evalR : P → Except ε R) : Except ε R :=
  match fitR with
  | Except.error e => Except.error e
  | Except.ok m =>
    match predictR m with
    | Except.error e => Except.error e
    | Except.ok p => evalR p

/-- C8: whichever stage of the run raises a framework-level error, the run
surfaces exactly that error value: nothing catches, transforms, or retries
it, and no later stage runs. -/
theorem framework_errors_propagate {ε M P R : Type}
    (fitR : Except ε M) (predictR : M → Except ε P) (evalR : P → Except ε R) :
    (∀ e, fitR = Except.error e →
      runPipeline fitR predictR evalR = Except.error e) ∧
    (∀ m e, fitR = Except.ok m → predictR m = Except.error e →
      runPipeline fitR predictR evalR = Except.error e) ∧
    (∀ m p e, fitR = Except.ok m → predictR m = Except.ok p →
      evalR p = Except.error e →
      runPipeline fitR predictR evalR = Except.error e) := by
  refine ⟨?_, ?_, ?_⟩
  · intro e h
    rw [runPipeline.eq_def, h]
  · intro m e h1 h2
    have hm : runPipeline fitR predictR evalR
        = match predictR m with
          | Except.error e => Except.error e
          | Except.ok p => evalR p := by
      rw [runPipeline.eq_def, h1]
    rw [hm, h2]
  · intro m p e h1 h2 h3
    have hm : runPipeline fitR predictR evalR
        = match predictR m with
          | Except.error e => Except.error e
          | Except.ok p => evalR p := by
      rw [runPipeline.eq_def, h1]
    rw [hm, h2]
    exact h3

/-- Witness for `framework_errors_propagate`: a failing framework `fit`
aborts a concrete pipeline with exactly its error. -/
theorem framework_errors_propagate_witness :
    runPipeline (Except.error ("resource exhausted") : Except String ℕ)
        (fun n => Except.ok (n + 1)) (fun p => Except.ok (p * 2))
      = Except.error ("resource exhausted") :=
  (framework_errors_propagate (Except.error ("resource exhausted"))
      (fun n => Except.ok (n + 1)) (fun p => Except.ok (p * 2))).1
    ("resource exhausted") rfl

end Pipeline
